import Mathlib

/-!
Verification of the PyList task tracker (src/main.py).

Shallow embedding conventions:
* `datetime` values are modelled as `Int` timestamps in whole seconds;
  `timedelta` values as `Int` counts of seconds.  All durations produced by
  `parse_time` are whole seconds, so `int(delta.total_seconds())` in
  `convert_timedelta` is the identity on this model.
* The Python `dict` backing `TodoList._list` is modelled as an association
  list `List (String × Task)` in insertion order; assignment updates the
  first (only) occurrence in place or appends, `pop` removes it.  A Python
  dict never holds a key twice, captured by the predicate `NoDupKeys`.
* `raise ValueError(f"Task '{name}' not found.")` is modelled as the error
  value `StoreError.taskNotFound name`; fallible methods return `Except`.
* The regex `(\d+)([dhms])` (re.findall) is modelled by the scanner
  `findTokens`: `\d` is taken as an ASCII digit.  Since `[dhms]` never
  matches a digit, a greedy digit run is never shortened by backtracking, so
  a maximal digit run followed by a non-unit character admits no match
  starting inside the run and the scanner may skip past it.
* The monitor thread's single tick body is `alert_due_tasks`; the
  notification sink is modelled by accumulating `Notif` records.
-/

namespace PyList

/-! ## DurationGrammar: parse_time (src/main.py lines 14-23) -/

/-- The character class `[dhms]` of the regex. -/
def isUnitChar (c : Char) : Bool :=
  c = 'd' || c = 'h' || c = 'm' || c = 's'

/-- Model of `re.findall(r'(\d+)([dhms])', time_str)` as a left-to-right scan.  A
match of the regex is a digit run immediately followed by a unit letter, and
matches never overlap.  Because `[dhms]` matches no digit, the greedy `\d+`
is never shortened by backtracking: every match consumes a maximal digit
run, and a maximal digit run whose following character is not a unit letter
admits no match starting inside it.  The accumulator carries the value of
the pending digit run (`int(amount)` of the digits read so far, `none` when
the previous character was not a digit), exactly the information the regex
engine has at each position. -/
def findTokensGo : Option Nat → List Char → List (Nat × Char)
  | _, [] => []
  | acc, c :: rest =>
    if c.isDigit then
      findTokensGo (some (acc.getD 0 * 10 + (c.toNat - '0'.toNat))) rest
    else
      match acc with
      | some n =>
        if isUnitChar c then (n, c) :: findTokensGo none rest
        else findTokensGo none rest
      | none => findTokensGo none rest

/-- All matches of `(\d+)([dhms])` in the character list. -/
def findTokens (l : List Char) : List (Nat × Char) :=
  findTokensGo none l

/-- The keyword dictionary passed to `timedelta(**kwargs)`: each field
defaults to zero when its key was never written. -/
structure TDargs where
  days : Nat := 0
  hours : Nat := 0
  minutes : Nat := 0
  seconds : Nat := 0
deriving Repr, DecidableEq

/-- One iteration of `for amount, unit in time_pattern.findall(time_str)`:
`kwargs[time_units[unit]] = int(amount)` (dictionary write, so a later
occurrence of the same unit overwrites an earlier one).  The regex only
produces units in `[dhms]`, so the `if unit in time_units` guard always
passes; other letters fall through unchanged. -/
def applyToken (k : TDargs) (t : Nat × Char) : TDargs :=
  match t.2 with
  | 'd' => { k with days := t.1 }
  | 'h' => { k with hours := t.1 }
  | 'm' => { k with minutes := t.1 }
  | 's' => { k with seconds := t.1 }
  | _ => k

/-- The `kwargs` dictionary after the whole findall loop. -/
def buildKwargs (toks : List (Nat × Char)) : TDargs :=
  toks.foldl applyToken {}

/-- Python `parse_time(time_str)` (lines 14-23): total seconds of
`timedelta(**kwargs)`. -/
def parse_time (time_str : String) : Int :=
  let k := buildKwargs (findTokens time_str.toList)
  ((k.days * 86400 + k.hours * 3600 + k.minutes * 60 + k.seconds : Nat) : Int)

/-! ## DurationGrammar: convert_timedelta (src/main.py lines 26-51) -/

/-- Python `', '.join(parts)` (`str.join` with separator `", "`). -/
def joinComma : List String → String
  | [] => ""
  | [p] => p
  | p :: q :: rest => p ++ ", " ++ joinComma (q :: rest)

/-- One rendered component `f"{n} {unit}{'s' if n > 1 else ''}"`. -/
def renderPart (n : Int) (unit : String) : String :=
  toString n ++ " " ++ unit ++ (if n > 1 then "s" else "")

/-- Lines 43-49: combine parts with commas and `and`. -/
def combineParts (parts : List String) : String :=
  if parts.length > 1 then
    joinComma (parts.dropLast) ++ ", and " ++ parts.getLastD ""
  else
    match parts with
    | p :: _ => p
    | [] => "0 seconds"

/-- Python `convert_timedelta(delta)` (lines 26-51).  `divmod` is Python floor
division / non-negative remainder, i.e. `Int.ediv` / `Int.emod` for the
positive divisors used here. -/
def convert_timedelta (delta : Int) : String :=
  let total_seconds := delta
  let days := total_seconds.ediv 86400
  let r1 := total_seconds.emod 86400
  let hours := r1.ediv 3600
  let r2 := r1.emod 3600
  let minutes := r2.ediv 60
  let seconds := r2.emod 60
  let parts :=
    (if days > 0 then [renderPart days "day"] else []) ++
    (if hours > 0 then [renderPart hours "hour"] else []) ++
    (if minutes > 0 then [renderPart minutes "minute"] else []) ++
    (if seconds > 0 then [renderPart seconds "second"] else [])
  combineParts parts

/-! ## TaskStore: the TodoList class (src/main.py lines 54-171) -/

/-- One entry of `self._list`: the per-task dict
`{"description": ..., "start": ..., "deadline": ...}`. -/
structure Task where
  description : String
  start : Int
  deadline : Int
deriving Repr, DecidableEq

/-- The dict `self._list` from task name to task, in insertion order. -/
abbrev Store := List (String × Task)

/-- The errors the store raises: `ValueError(f"Task '{name}' not found.")`,
the spec's `TaskNotFoundError`. -/
inductive StoreError where
  | taskNotFound (name : String)
deriving Repr, DecidableEq

/-- Membership test `name in self._list`. -/
def memName (name : String) (s : Store) : Bool :=
  s.any (fun p => p.1 = name)

/-- Reading `self._list[name]`: the value stored at `name`, if any. -/
def lookupTask (name : String) : Store → Option Task
  | [] => none
  | p :: rest => if p.1 = name then some p.2 else lookupTask name rest

/-- Dict assignment `self._list[name] = value`: it overwrites the entry in
place if the key exists (keeping its position) and appends otherwise. -/
def dictSet (name : String) (t : Task) : Store → Store
  | [] => [(name, t)]
  | p :: rest => if p.1 = name then (name, t) :: rest else p :: dictSet name t rest

/-- Dict removal `self._list.pop(name, None)`: drop the entry with this key. -/
def dictPop (name : String) : Store → Store
  | [] => []
  | p :: rest => if p.1 = name then rest else p :: dictPop name rest

/-- In-place mutation of one field of the entry at `name`
(`self._list[name]["deadline"] += delta`). -/
def dictModify (name : String) (f : Task → Task) : Store → Store
  | [] => []
  | p :: rest => if p.1 = name then (p.1, f p.2) :: rest else p :: dictModify name f rest

namespace TodoList

/-- Python `TodoList.add` (lines 61-67): unconditional dict assignment with
`start = now` and `deadline = now + parse_time(time_str)`; never raises. -/
def add (name description time_str : String) (now : Int) (s : Store) : Store :=
  dictSet name ⟨description, now, now + parse_time time_str⟩ s

/-- Python `TodoList.remove` (lines 69-74). -/
def remove (name : String) (s : Store) : Except StoreError Store :=
  if memName name s then .ok (dictPop name s)
  else .error (.taskNotFound name)

/-- Python `TodoList.snooze` (lines 76-83): `self._list[name]["deadline"] += delta`. -/
def snooze (name time_str : String) (s : Store) : Except StoreError Store :=
  if memName name s then
    .ok (dictModify name
      (fun t => { t with deadline := t.deadline + parse_time time_str }) s)
  else .error (.taskNotFound name)

/-- Python `TodoList.get_task` (lines 85-89). -/
def get_task (name : String) (s : Store) : Except StoreError Task :=
  if memName name s then
    match lookupTask name s with
    | some t => .ok t
    | none => .error (.taskNotFound name)
  else .error (.taskNotFound name)

/-- Python `TodoList.get_description` (lines 91-95). -/
def get_description (name : String) (s : Store) : Except StoreError String :=
  (get_task name s).map Task.description

/-- Python `TodoList.get_deadline` (lines 97-101). -/
def get_deadline (name : String) (s : Store) : Except StoreError Int :=
  (get_task name s).map Task.deadline

/-- Python `TodoList.get_start` (lines 103-107). -/
def get_start (name : String) (s : Store) : Except StoreError Int :=
  (get_task name s).map Task.start

/-- Python `TodoList.time_left` (lines 109-116): `deadline - now`. -/
def time_left (name : String) (now : Int) (s : Store) : Except StoreError Int :=
  if memName name s then
    match lookupTask name s with
    | some t => .ok (t.deadline - now)
    | none => .error (.taskNotFound name)
  else .error (.taskNotFound name)

/-- Python `TodoList.check_due_tasks` (lines 142-146): names of tasks whose
`deadline <= now`, in dict iteration (= insertion) order. -/
def check_due_tasks (now : Int) (s : Store) : List String :=
  (s.filter (fun p => p.2.deadline ≤ now)).map Prod.fst

end TodoList

/-- One `notification.notify(...)` call plus the alert printout of
`alert_due_tasks`: the data read from the store for the due task. -/
structure Notif where
  name : String
  description : String
  start : Int
  deadline : Int
deriving Repr, DecidableEq

namespace TodoList

/-- The body of the `for name in due_tasks` loop of `alert_due_tasks`
(lines 151-171), threading the store and the fired notifications.  Each of
the reads and the final `remove` can raise, which propagates out. -/
def alertLoop : List String → Store → List Notif →
    Except StoreError (Store × List Notif)
  | [], s, ns => .ok (s, ns)
  | name :: rest, s, ns => do
    let description ← get_description name s
    let start ← get_start name s
    let deadline ← get_deadline name s
    let s' ← remove name s
    alertLoop rest s' (ns ++ [⟨name, description, start, deadline⟩])

/-- Python `TodoList.alert_due_tasks` (lines 148-171): one monitor tick at time
`now` — snapshot the due names, then notify and remove each. -/
def alert_due_tasks (now : Int) (s : Store) :
    Except StoreError (Store × List Notif) :=
  alertLoop (check_due_tasks now s) s []

end TodoList

/-- Representation invariant of a Python dict: no key occurs twice. -/
def NoDupKeys (s : Store) : Prop :=
  (s.map Prod.fst).Nodup

/-- Store states reachable from program start (`TodoList.__init__` gives the
empty dict) by any sequence of user commands and monitor ticks. -/
inductive Reachable : Store → Prop where
  | init : Reachable []
  | add (name description time_str : String) (now : Int) {s : Store} :
      Reachable s → Reachable (TodoList.add name description time_str now s)
  | remove (name : String) {s s' : Store} :
      Reachable s → TodoList.remove name s = .ok s' → Reachable s'
  | snooze (name time_str : String) {s s' : Store} :
      Reachable s → TodoList.snooze name time_str s = .ok s' → Reachable s'
  | tick (now : Int) {s s' : Store} {ns : List Notif} :
      Reachable s → TodoList.alert_due_tasks now s = .ok (s', ns) → Reachable s'

/-! ## Helper lemmas about the dict model -/

theorem memName_iff_lookup (name : String) (s : Store) :
    memName name s = true ↔ (lookupTask name s).isSome := by
  induction s with
  | nil => simp [memName, lookupTask]
  | cons p rest ih =>
    by_cases hp : p.1 = name <;> simp [memName, lookupTask, hp] at ih ⊢
    exact ih

theorem lookup_eq_none_iff (name : String) (s : Store) :
    lookupTask name s = none ↔ memName name s = false := by
  rw [← Option.not_isSome_iff_eq_none, ← memName_iff_lookup]
  simp

theorem lookup_mem (name : String) (s : Store) (t : Task)
    (h : lookupTask name s = some t) : (name, t) ∈ s := by
  induction s with
  | nil => simp [lookupTask] at h
  | cons p rest ih =>
    by_cases hp : p.1 = name <;> simp [lookupTask, hp] at h
    · have hpt : p = (name, t) := by
        cases p
        simp_all
      rw [← hpt]
      exact List.mem_cons_self _ _
    · exact List.mem_cons_of_mem _ (ih h)

theorem lookup_of_mem_nodup {s : Store} (hs : NoDupKeys s) {p : String × Task}
    (hp : p ∈ s) : lookupTask p.1 s = some p.2 := by
  induction s with
  | nil => simp at hp
  | cons q rest ih =>
    simp only [NoDupKeys, List.map_cons, List.nodup_cons] at hs
    rcases List.mem_cons.mp hp with h | h
    · subst h
      simp [lookupTask]
    · have hne : q.1 ≠ p.1 := by
        intro he
        exact hs.1 (he ▸ List.mem_map_of_mem Prod.fst h)
      simp [lookupTask, hne]
      exact ih hs.2 h

theorem lookup_dictSet_self (name : String) (t : Task) (s : Store) :
    lookupTask name (dictSet name t s) = some t := by
  induction s with
  | nil => simp [dictSet, lookupTask]
  | cons p rest ih =>
    by_cases hp : p.1 = name <;> simp [dictSet, hp, lookupTask, ih]

theorem lookup_dictSet_ne (name m : String) (t : Task) (s : Store) (h : m ≠ name) :
    lookupTask m (dictSet name t s) = lookupTask m s := by
  have hnm : ¬(name = m) := fun he => h he.symm
  induction s with
  | nil => simp [dictSet, lookupTask, hnm]
  | cons p rest ih =>
    by_cases hp : p.1 = name
    · have hpm : ¬(p.1 = m) := by
        rw [hp]
        exact hnm
      simp only [dictSet, if_pos hp, lookupTask, if_neg hnm, if_neg hpm]
    · by_cases hm : p.1 = m
      · simp only [dictSet, if_neg hp, lookupTask, if_pos hm]
      · simp only [dictSet, if_neg hp, lookupTask, if_neg hm, ih]

theorem lookup_dictPop_ne (name m : String) (s : Store) (h : m ≠ name) :
    lookupTask m (dictPop name s) = lookupTask m s := by
  have hnm : ¬(name = m) := fun he => h he.symm
  induction s with
  | nil => simp [dictPop]
  | cons p rest ih =>
    by_cases hp : p.1 = name
    · have hpm : ¬(p.1 = m) := by
        rw [hp]
        exact hnm
      simp only [dictPop, if_pos hp, lookupTask, if_neg hpm]
    · by_cases hm : p.1 = m
      · simp only [dictPop, if_neg hp, lookupTask, if_pos hm]
      · simp only [dictPop, if_neg hp, lookupTask, if_neg hm, ih]

theorem lookup_dictModify_self (name : String) (f : Task → Task) (s : Store) :
    lookupTask name (dictModify name f s) = (lookupTask name s).map f := by
  induction s with
  | nil => simp [dictModify, lookupTask]
  | cons p rest ih =>
    by_cases hp : p.1 = name <;> simp [dictModify, hp, lookupTask, ih]

theorem dictPop_eq_filter {s : Store} (name : String) (hs : NoDupKeys s) :
    dictPop name s = s.filter (fun p => !(decide (p.1 = name))) := by
  induction s with
  | nil => simp [dictPop]
  | cons p rest ih =>
    simp only [NoDupKeys, List.map_cons, List.nodup_cons] at hs
    by_cases hp : p.1 = name
    · have hrest : rest.filter (fun p => !(decide (p.1 = name))) = rest := by
        apply List.filter_eq_self.mpr
        intro q hq
        simp only [Bool.not_eq_true', decide_eq_false_iff_not]
        intro he
        exact hs.1 (hp ▸ he ▸ List.mem_map_of_mem Prod.fst hq)
      simp [dictPop, hp, hrest]
    · simp [dictPop, hp, ih hs.2]

theorem keys_dictSet (name : String) (t : Task) (s : Store) :
    (dictSet name t s).map Prod.fst =
      if memName name s then s.map Prod.fst else s.map Prod.fst ++ [name] := by
  induction s with
  | nil => simp [dictSet, memName]
  | cons p rest ih =>
    by_cases hp : p.1 = name
    · have hm : memName name (p :: rest) = true := by
        simp [memName, hp]
      rw [if_pos hm]
      simp [dictSet, hp]
    · have hm2 : memName name (p :: rest) = memName name rest := by
        simp [memName, hp]
      simp only [dictSet, if_neg hp, List.map_cons, hm2, ih]
      by_cases hm : memName name rest = true
      · rw [if_pos hm, if_pos hm]
      · rw [if_neg hm, if_neg hm]
        simp

theorem keys_dictModify (name : String) (f : Task → Task) (s : Store) :
    (dictModify name f s).map Prod.fst = s.map Prod.fst := by
  induction s with
  | nil => simp [dictModify]
  | cons p rest ih =>
    by_cases hp : p.1 = name <;> simp [dictModify, hp, ih]

theorem nodup_dictSet (name : String) (t : Task) {s : Store} (hs : NoDupKeys s) :
    NoDupKeys (dictSet name t s) := by
  unfold NoDupKeys
  rw [keys_dictSet]
  by_cases hm : memName name s
  · simpa [hm] using hs
  · rw [if_neg hm]
    refine List.Nodup.append hs (List.nodup_singleton name) ?_
    intro a ha hb
    rcases List.mem_singleton.mp hb with rfl
    rcases List.mem_map.mp ha with ⟨p, hp, rfl⟩
    have : (lookupTask p.1 s).isSome := by
      have := lookup_of_mem_nodup hs hp
      simp [this]
    rw [← memName_iff_lookup] at this
    exact absurd this (by simpa using hm)

theorem nodup_dictPop (name : String) {s : Store} (hs : NoDupKeys s) :
    NoDupKeys (dictPop name s) := by
  unfold NoDupKeys
  rw [dictPop_eq_filter name hs]
  exact List.Nodup.sublist ((List.filter_sublist s).map Prod.fst) hs

theorem nodup_dictModify (name : String) (f : Task → Task) {s : Store}
    (hs : NoDupKeys s) : NoDupKeys (dictModify name f s) := by
  unfold NoDupKeys
  rw [keys_dictModify]
  exact hs

theorem parse_time_nonneg (time_str : String) : 0 ≤ parse_time time_str := by
  unfold parse_time
  exact Int.natCast_nonneg _

theorem findTokensGo_units (l : List Char) :
    ∀ (acc : Option Nat) (t : Nat × Char),
      t ∈ findTokensGo acc l → isUnitChar t.2 = true := by
  induction l with
  | nil =>
    intro acc t ht
    simp [findTokensGo] at ht
  | cons c rest ih =>
    intro acc t ht
    by_cases hd : c.isDigit
    · simp only [findTokensGo, if_pos hd] at ht
      exact ih _ t ht
    · cases acc with
      | none =>
        simp only [findTokensGo, if_neg hd] at ht
        exact ih _ t ht
      | some n =>
        simp only [findTokensGo, if_neg hd] at ht
        by_cases hu : isUnitChar c
        · rw [if_pos hu] at ht
          rcases List.mem_cons.mp ht with rfl | ht'
          · exact hu
          · exact ih _ t ht'
        · rw [if_neg hu] at ht
          exact ih _ t ht

/-- The last amount written for unit letter `u` by the findall loop, zero if
the unit never occurs: the value `timedelta(**kwargs)` receives for that
unit. -/
def lastAmount (u : Char) (toks : List (Nat × Char)) : Nat :=
  ((toks.filter (fun t => t.2 = u)).map Prod.fst).getLastD 0

theorem foldl_applyToken_days (toks : List (Nat × Char)) (k : TDargs) :
    (toks.foldl applyToken k).days =
      ((toks.filter (fun t => t.2 = 'd')).map Prod.fst).getLastD k.days := by
  induction toks generalizing k with
  | nil => rfl
  | cons t ts ih =>
    rw [List.foldl_cons, ih]
    by_cases hu : t.2 = 'd'
    · have h1 : (applyToken k t).days = t.1 := by
        obtain ⟨a, u⟩ := t
        simp only at hu
        subst hu
        rfl
      rw [h1, List.filter_cons_of_pos (by simp [hu]), List.map_cons,
        List.getLastD_cons]
    · have h1 : (applyToken k t).days = k.days := by
        obtain ⟨a, u⟩ := t
        simp only [applyToken]
        split <;> simp_all
      rw [h1, List.filter_cons_of_neg (by simp [hu])]

theorem foldl_applyToken_hours (toks : List (Nat × Char)) (k : TDargs) :
    (toks.foldl applyToken k).hours =
      ((toks.filter (fun t => t.2 = 'h')).map Prod.fst).getLastD k.hours := by
  induction toks generalizing k with
  | nil => rfl
  | cons t ts ih =>
    rw [List.foldl_cons, ih]
    by_cases hu : t.2 = 'h'
    · have h1 : (applyToken k t).hours = t.1 := by
        obtain ⟨a, u⟩ := t
        simp only at hu
        subst hu
        rfl
      rw [h1, List.filter_cons_of_pos (by simp [hu]), List.map_cons,
        List.getLastD_cons]
    · have h1 : (applyToken k t).hours = k.hours := by
        obtain ⟨a, u⟩ := t
        simp only [applyToken]
        split <;> simp_all
      rw [h1, List.filter_cons_of_neg (by simp [hu])]

theorem foldl_applyToken_minutes (toks : List (Nat × Char)) (k : TDargs) :
    (toks.foldl applyToken k).minutes =
      ((toks.filter (fun t => t.2 = 'm')).map Prod.fst).getLastD k.minutes := by
  induction toks generalizing k with
  | nil => rfl
  | cons t ts ih =>
    rw [List.foldl_cons, ih]
    by_cases hu : t.2 = 'm'
    · have h1 : (applyToken k t).minutes = t.1 := by
        obtain ⟨a, u⟩ := t
        simp only at hu
        subst hu
        rfl
      rw [h1, List.filter_cons_of_pos (by simp [hu]), List.map_cons,
        List.getLastD_cons]
    · have h1 : (applyToken k t).minutes = k.minutes := by
        obtain ⟨a, u⟩ := t
        simp only [applyToken]
        split <;> simp_all
      rw [h1, List.filter_cons_of_neg (by simp [hu])]

theorem foldl_applyToken_seconds (toks : List (Nat × Char)) (k : TDargs) :
    (toks.foldl applyToken k).seconds =
      ((toks.filter (fun t => t.2 = 's')).map Prod.fst).getLastD k.seconds := by
  induction toks generalizing k with
  | nil => rfl
  | cons t ts ih =>
    rw [List.foldl_cons, ih]
    by_cases hu : t.2 = 's'
    · have h1 : (applyToken k t).seconds = t.1 := by
        obtain ⟨a, u⟩ := t
        simp only at hu
        subst hu
        rfl
      rw [h1, List.filter_cons_of_pos (by simp [hu]), List.map_cons,
        List.getLastD_cons]
    · have h1 : (applyToken k t).seconds = k.seconds := by
        obtain ⟨a, u⟩ := t
        simp only [applyToken]
        split <;> simp_all
      rw [h1, List.filter_cons_of_neg (by simp [hu])]

theorem mem_dictSet (name : String) (t : Task) (s : Store) (p : String × Task)
    (hp : p ∈ dictSet name t s) : p = (name, t) ∨ p ∈ s := by
  induction s with
  | nil => simpa [dictSet] using hp
  | cons q rest ih =>
    by_cases hq : q.1 = name
    · rw [dictSet, if_pos hq] at hp
      rcases List.mem_cons.mp hp with rfl | hp'
      · exact Or.inl rfl
      · exact Or.inr (List.mem_cons_of_mem q hp')
    · rw [dictSet, if_neg hq] at hp
      rcases List.mem_cons.mp hp with rfl | hp'
      · exact Or.inr (List.mem_cons_self _ _)
      · rcases ih hp' with h | h
        · exact Or.inl h
        · exact Or.inr (List.mem_cons_of_mem q h)

theorem mem_dictPop (name : String) (s : Store) (p : String × Task)
    (hp : p ∈ dictPop name s) : p ∈ s := by
  induction s with
  | nil => simpa [dictPop] using hp
  | cons q rest ih =>
    by_cases hq : q.1 = name
    · rw [dictPop, if_pos hq] at hp
      exact List.mem_cons_of_mem q hp
    · rw [dictPop, if_neg hq] at hp
      rcases List.mem_cons.mp hp with rfl | hp'
      · exact List.mem_cons_self _ _
      · exact List.mem_cons_of_mem q (ih hp')

theorem mem_dictModify (name : String) (f : Task → Task) (s : Store)
    (p : String × Task) (hp : p ∈ dictModify name f s) :
    p ∈ s ∨ ∃ q ∈ s, p = (q.1, f q.2) := by
  induction s with
  | nil => simpa [dictModify] using hp
  | cons q rest ih =>
    by_cases hq : q.1 = name
    · rw [dictModify, if_pos hq] at hp
      rcases List.mem_cons.mp hp with rfl | hp'
      · exact Or.inr ⟨q, List.mem_cons_self _ _, rfl⟩
      · exact Or.inl (List.mem_cons_of_mem q hp')
    · rw [dictModify, if_neg hq] at hp
      rcases List.mem_cons.mp hp with rfl | hp'
      · exact Or.inl (List.mem_cons_self _ _)
      · rcases ih hp' with h | ⟨r, hr, he⟩
        · exact Or.inl (List.mem_cons_of_mem q h)
        · exact Or.inr ⟨r, List.mem_cons_of_mem q hr, he⟩

/-- The notification record the loop body assembles for a task present in
the store. -/
def notifOf (name : String) (t : Task) : Notif :=
  ⟨name, t.description, t.start, t.deadline⟩

theorem alertLoop_ok (l : List String) :
    ∀ (s : Store) (acc : List Notif),
      (∀ n ∈ l, memName n s = true) → l.Nodup → NoDupKeys s →
      ∃ ns, TodoList.alertLoop l s acc =
          .ok (s.filter (fun p => !(decide (p.1 ∈ l))), acc ++ ns)
        ∧ ns.map Notif.name = l := by
  induction l with
  | nil =>
    intro s acc _ _ _
    refine ⟨[], ?_, rfl⟩
    simp [TodoList.alertLoop]
  | cons n l' ih =>
    intro s acc hpres hnd hs
    have hm : memName n s = true := hpres n (List.mem_cons_self _ _)
    obtain ⟨t, ht⟩ := Option.isSome_iff_exists.mp ((memName_iff_lookup n s).mp hm)
    have hnd' := (List.nodup_cons.mp hnd).2
    have hnotin := (List.nodup_cons.mp hnd).1
    have hstep : TodoList.alertLoop (n :: l') s acc =
        TodoList.alertLoop l' (dictPop n s) (acc ++ [notifOf n t]) := by
      simp [TodoList.alertLoop, TodoList.get_description, TodoList.get_start,
        TodoList.get_deadline, TodoList.get_task, TodoList.remove, hm, ht,
        Except.map, Bind.bind, Except.bind, notifOf]
    have hpres' : ∀ m ∈ l', memName m (dictPop n s) = true := by
      intro m hml
      have hmn : m ≠ n := fun he => hnotin (he ▸ hml)
      rw [memName_iff_lookup, lookup_dictPop_ne n m s hmn,
        ← memName_iff_lookup]
      exact hpres m (List.mem_cons_of_mem n hml)
    obtain ⟨ns', heq, hnames⟩ := ih (dictPop n s) (acc ++ [notifOf n t])
      hpres' hnd' (nodup_dictPop n hs)
    refine ⟨notifOf n t :: ns', ?_, by simp [hnames, notifOf]⟩
    rw [hstep, heq, dictPop_eq_filter n hs, List.filter_filter]
    have hpred : ∀ p : String × Task,
        ((!decide (p.1 ∈ l')) && !decide (p.1 = n)) = !decide (p.1 ∈ n :: l') := by
      intro p
      by_cases h1 : p.1 = n <;> by_cases h2 : p.1 ∈ l' <;>
        simp [h1, h2, List.mem_cons]
    simp only [hpred]
    simp

/-- If the key of an entry of a dup-free store is among the due names, the
entry itself is due, and conversely. -/
theorem mem_check_due_iff (now : Int) {s : Store} (hs : NoDupKeys s)
    {p : String × Task} (hp : p ∈ s) :
    p.1 ∈ TodoList.check_due_tasks now s ↔ p.2.deadline ≤ now := by
  constructor
  · intro h
    obtain ⟨q, hq, hq1⟩ := List.mem_map.mp h
    have hqs : q ∈ s := (List.filter_sublist s).subset hq
    have hdl := List.of_mem_filter hq
    have h1 := lookup_of_mem_nodup hs hp
    have h2 := lookup_of_mem_nodup hs hqs
    rw [hq1] at h2
    rw [h1] at h2
    have : p.2 = q.2 := by
      injection h2
    rw [this]
    simpa using hdl
  · intro h
    apply List.mem_map.mpr
    refine ⟨p, List.mem_filter.mpr ⟨hp, by simpa using h⟩, rfl⟩

/-- One monitor tick on a dup-free store succeeds and leaves exactly the
tasks whose deadline lies strictly in the future, notifying the rest. -/
theorem alert_due_tasks_eq (now : Int) {s : Store} (hs : NoDupKeys s) :
    ∃ ns, TodoList.alert_due_tasks now s =
        .ok (s.filter (fun p => !(decide (p.2.deadline ≤ now))), ns)
      ∧ ns.map Notif.name = TodoList.check_due_tasks now s := by
  have hdup : (TodoList.check_due_tasks now s).Nodup :=
    List.Nodup.sublist ((List.filter_sublist s).map Prod.fst) hs
  have hpres : ∀ n ∈ TodoList.check_due_tasks now s, memName n s = true := by
    intro n hn
    obtain ⟨q, hq, hq1⟩ := List.mem_map.mp hn
    have hqs : q ∈ s := (List.filter_sublist s).subset hq
    rw [memName_iff_lookup, ← hq1, lookup_of_mem_nodup hs hqs]
    rfl
  obtain ⟨ns, heq, hnames⟩ :=
    alertLoop_ok (TodoList.check_due_tasks now s) s [] hpres hdup hs
  refine ⟨ns, ?_, hnames⟩
  rw [TodoList.alert_due_tasks, heq]
  have : s.filter (fun p => !(decide (p.1 ∈ TodoList.check_due_tasks now s))) =
      s.filter (fun p => !(decide (p.2.deadline ≤ now))) := by
    apply List.filter_congr
    intro p hp
    have hiff := mem_check_due_iff now hs hp
    by_cases h : p.2.deadline ≤ now
    · simp [h, hiff.mpr h]
    · have hni : p.1 ∉ TodoList.check_due_tasks now s := fun hc => h (hiff.mp hc)
      simp [h, hni]
  rw [this]
  simp

/-- Every store reachable from program start is a well-formed dict: no key
occurs twice. -/
theorem reachable_nodup {s : Store} (h : Reachable s) : NoDupKeys s := by
  induction h with
  | init => simp [NoDupKeys]
  | add name description time_str now _ ih => exact nodup_dictSet name _ ih
  | @remove name s1 s2 _ hok ih =>
    rw [TodoList.remove] at hok
    by_cases hm : memName name s1 = true
    · rw [if_pos hm] at hok
      injection hok with hok
      exact hok ▸ nodup_dictPop name ih
    · rw [if_neg hm] at hok
      cases hok
  | @snooze name time_str s1 s2 _ hok ih =>
    rw [TodoList.snooze] at hok
    by_cases hm : memName name s1 = true
    · rw [if_pos hm] at hok
      injection hok with hok
      exact hok ▸ nodup_dictModify name _ ih
    · rw [if_neg hm] at hok
      cases hok
  | tick now _ hok ih =>
    obtain ⟨ns0, heq, _⟩ := alert_due_tasks_eq now ih
    rw [heq] at hok
    injection hok with hok
    have h1 : _ = _ := congrArg Prod.fst hok
    simp only at h1
    rw [← h1]
    exact List.Nodup.sublist ((List.filter_sublist _).map Prod.fst) ih

/-! ## Claim theorems -/

/-- C2: each of remove, snooze, get, getDescription, getDeadline, getStart
and timeLeft fails with `TaskNotFoundError` if and only if the name is
absent from the store (`name in self._list` is false); when the name is
present the operation returns a value without raising. -/
theorem store_ops_fail_iff_absent (name time_str : String) (now : Int) (s : Store) :
    (TodoList.remove name s = .error (.taskNotFound name) ↔ memName name s = false)
    ∧ ((∃ s2, TodoList.remove name s = .ok s2) ↔ memName name s = true)
    ∧ (TodoList.snooze name time_str s = .error (.taskNotFound name) ↔ memName name s = false)
    ∧ ((∃ s2, TodoList.snooze name time_str s = .ok s2) ↔ memName name s = true)
    ∧ (TodoList.get_task name s = .error (.taskNotFound name) ↔ memName name s = false)
    ∧ ((∃ t, TodoList.get_task name s = .ok t) ↔ memName name s = true)
    ∧ (TodoList.get_description name s = .error (.taskNotFound name) ↔ memName name s = false)
    ∧ ((∃ d, TodoList.get_description name s = .ok d) ↔ memName name s = true)
    ∧ (TodoList.get_deadline name s = .error (.taskNotFound name) ↔ memName name s = false)
    ∧ ((∃ d, TodoList.get_deadline name s = .ok d) ↔ memName name s = true)
    ∧ (TodoList.get_start name s = .error (.taskNotFound name) ↔ memName name s = false)
    ∧ ((∃ d, TodoList.get_start name s = .ok d) ↔ memName name s = true)
    ∧ (TodoList.time_left name now s = .error (.taskNotFound name) ↔ memName name s = false)
    ∧ ((∃ d, TodoList.time_left name now s = .ok d) ↔ memName name s = true) := by
  by_cases hm : memName name s = true
  · obtain ⟨t, ht⟩ := Option.isSome_iff_exists.mp ((memName_iff_lookup name s).mp hm)
    simp [TodoList.remove, TodoList.snooze, TodoList.get_task,
      TodoList.get_description, TodoList.get_deadline, TodoList.get_start,
      TodoList.time_left, hm, ht, Except.map]
  · have hm' : memName name s = false := by
      simpa using hm
    have hl : lookupTask name s = none := (lookup_eq_none_iff name s).mpr hm'
    simp [TodoList.remove, TodoList.snooze, TodoList.get_task,
      TodoList.get_description, TodoList.get_deadline, TodoList.get_start,
      TodoList.time_left, hm', hl, Except.map]

/-- C3: snoozing a stored task sets its deadline to the previous deadline
plus the parsed duration — relative to the current deadline, not to the
current time (no `now` enters the computation at all). -/
theorem snooze_extends_deadline (name time_str : String) (s : Store) (t : Task)
    (h : lookupTask name s = some t) :
    ∃ s', TodoList.snooze name time_str s = .ok s' ∧
      lookupTask name s' = some { t with deadline := t.deadline + parse_time time_str } := by
  have hm : memName name s = true := by
    rw [memName_iff_lookup, h]
    rfl
  refine ⟨dictModify name
    (fun u => { u with deadline := u.deadline + parse_time time_str }) s, ?_, ?_⟩
  · simp [TodoList.snooze, hm]
  · rw [lookup_dictModify_self, h]
    rfl

/-- Witness for C3 at a concrete store: snoozing a task whose deadline is
100 by "30m" yields deadline 1900 = 100 + 1800. -/
theorem snooze_extends_deadline_witness :
    ∃ s', TodoList.snooze "a" "30m" [("a", ⟨"x", 0, 100⟩)] = .ok s' ∧
      lookupTask "a" s' = some ⟨"x", 0, 1900⟩ := by
  obtain ⟨s', h1, h2⟩ := snooze_extends_deadline "a" "30m"
    [("a", ⟨"x", 0, 100⟩)] ⟨"x", 0, 100⟩ (by decide)
  refine ⟨s', h1, ?_⟩
  rw [h2]
  decide

/-- C4: add is a total function (it has no error channel, unlike the
fallible operations), and it inserts a task with `start = now` and
`deadline = now + parse_time(time_str)` under the given name — also when
the name is already present, in which case the old task is silently
overwritten (the store's dict assignment), never rejected with a
duplicate-name error. -/
theorem add_inserts_and_overwrites (name description time_str : String)
    (now : Int) (s : Store) :
    lookupTask name (TodoList.add name description time_str now s) =
      some ⟨description, now, now + parse_time time_str⟩ :=
  lookup_dictSet_self name _ s

/-- C7: the zero duration renders as "0 seconds", and 90 seconds takes the
two-component join path, rendering with the comma before "and". -/
theorem format_zero_and_two_parts :
    convert_timedelta 0 = "0 seconds"
    ∧ convert_timedelta 90 = "1 minute, and 30 seconds" := by
  constructor <;> decide

/-- C8 counterexample: formatting 1 day 0 hours 0 minutes 1 second
(86401 seconds) does not produce "1 day and 1 second": two components also
take the ", and" join path. -/
theorem format_day_second_counterexample :
    ¬ convert_timedelta 86401 = "1 day and 1 second" := by
  decide

/-- C8 amended: formatting 1 day 0 hours 0 minutes 1 second yields the
literal "1 day, and 1 second", with the comma before "and". -/
theorem format_day_second_amended :
    convert_timedelta 86401 = "1 day, and 1 second" := by
  decide

/-- C5: parse_time is total by construction (a plain function `String → Int`
with no error channel); an input containing no digits-unit match — in
particular "" and "xyz" — yields the zero duration; and a unit letter
outside d, h, m, s never forms a match, so it is silently ignored and
contributes nothing ("5x" parses to zero, "5x2h" to two hours). -/
theorem parse_time_total_and_lenient :
    parse_time "" = 0
    ∧ parse_time "xyz" = 0
    ∧ parse_time "5x" = 0
    ∧ parse_time "5x2h" = 7200
    ∧ (∀ time_str : String, findTokens time_str.toList = [] → parse_time time_str = 0)
    ∧ (∀ (time_str : String) (t : Nat × Char),
        t ∈ findTokens time_str.toList → isUnitChar t.2 = true) := by
  refine ⟨by decide, by decide, by decide, by decide, ?_, ?_⟩
  · intro time_str h
    have h2 : findTokens time_str.data = [] := h
    simp [parse_time, String.toList, h2, buildKwargs]
  · intro time_str t ht
    exact findTokensGo_units time_str.toList none t ht

/-- Witness for C5 at concrete inputs: "abc" contains no match and parses
to zero; the match found in "2h" carries the unit letter h. -/
theorem parse_time_total_and_lenient_witness :
    parse_time "abc" = 0 ∧ isUnitChar 'h' = true := by
  constructor
  · exact parse_time_total_and_lenient.2.2.2.2.1 "abc" (by decide)
  · exact parse_time_total_and_lenient.2.2.2.2.2 "2h" (2, 'h') (by decide)

/-- C1: one monitor tick (`alert_due_tasks`) at scan time `now` on a
well-formed store succeeds, fires exactly one notification for each task
whose deadline ≤ now (the notified names are exactly the due names, without
repetition, and every stored due task is among them) and then removes those
tasks: afterwards every remaining task has deadline strictly after `now`,
and `check_due_tasks` at the same time returns the empty list, so it never
returns an alerted name again. -/
theorem monitor_tick_alerts_once_and_clears (now : Int) (s : Store)
    (hs : NoDupKeys s) :
    ∃ s' ns, TodoList.alert_due_tasks now s = .ok (s', ns)
      ∧ ns.map Notif.name = TodoList.check_due_tasks now s
      ∧ (ns.map Notif.name).Nodup
      ∧ (∀ name t, lookupTask name s = some t → t.deadline ≤ now →
          name ∈ ns.map Notif.name)
      ∧ (∀ p ∈ s', now < p.2.deadline)
      ∧ TodoList.check_due_tasks now s' = [] := by
  obtain ⟨ns, heq, hnames⟩ := alert_due_tasks_eq now hs
  refine ⟨_, ns, heq, hnames, ?_, ?_, ?_, ?_⟩
  · rw [hnames]
    exact List.Nodup.sublist ((List.filter_sublist s).map Prod.fst) hs
  · intro name t hlk hdl
    rw [hnames]
    exact (mem_check_due_iff now hs (lookup_mem name s t hlk)).mpr hdl
  · intro p hp
    have h2 : ¬(p.2.deadline ≤ now) := by
      simpa using List.of_mem_filter hp
    omega
  · simp [TodoList.check_due_tasks, List.filter_filter]

/-- Witness for C1 at a concrete store with one due and one future task. -/
theorem monitor_tick_alerts_once_and_clears_witness :
    ∃ s' ns,
      TodoList.alert_due_tasks 10 [("a", ⟨"da", 0, 5⟩), ("b", ⟨"db", 0, 20⟩)]
          = .ok (s', ns)
      ∧ ns.map Notif.name =
          TodoList.check_due_tasks 10 [("a", ⟨"da", 0, 5⟩), ("b", ⟨"db", 0, 20⟩)]
      ∧ (ns.map Notif.name).Nodup
      ∧ (∀ name t,
          lookupTask name [("a", ⟨"da", 0, 5⟩), ("b", ⟨"db", 0, 20⟩)] = some t →
          t.deadline ≤ 10 → name ∈ ns.map Notif.name)
      ∧ (∀ p ∈ s', 10 < p.2.deadline)
      ∧ TodoList.check_due_tasks 10 s' = [] :=
  monitor_tick_alerts_once_and_clears 10
    [("a", ⟨"da", 0, 5⟩), ("b", ⟨"db", 0, 20⟩)]
    (by unfold NoDupKeys; decide)

/-- Invariant of C9: every stored task has its deadline at or after its
start. -/
def DeadlineInv (s : Store) : Prop :=
  ∀ p ∈ s, p.2.start ≤ p.2.deadline

/-- C9: in every store state reachable by any sequence of add, snooze,
remove and monitor ticks, every task satisfies deadline ≥ start; a
zero-duration add (deadline = start) is permitted, since parsed durations
are merely non-negative. -/
theorem reachable_deadline_ge_start {s : Store} (h : Reachable s) :
    DeadlineInv s := by
  induction h with
  | init =>
    intro p hp
    simp at hp
  | @add name description time_str now s1 hr ih =>
    intro p hp
    rcases mem_dictSet name _ s1 p hp with rfl | hp'
    · have hd := parse_time_nonneg time_str
      simp only
      omega
    · exact ih p hp'
  | @remove name s1 s2 hr hok ih =>
    rw [TodoList.remove] at hok
    by_cases hm : memName name s1 = true
    · rw [if_pos hm] at hok
      injection hok with hok
      intro p hp
      rw [← hok] at hp
      exact ih p (mem_dictPop name s1 p hp)
    · rw [if_neg hm] at hok
      cases hok
  | @snooze name time_str s1 s2 hr hok ih =>
    rw [TodoList.snooze] at hok
    by_cases hm : memName name s1 = true
    · rw [if_pos hm] at hok
      injection hok with hok
      intro p hp
      rw [← hok] at hp
      rcases mem_dictModify name _ s1 p hp with hp' | ⟨q, hq, he⟩
      · exact ih p hp'
      · have hq2 := ih q hq
        have hd := parse_time_nonneg time_str
        rw [he]
        simp only
        omega
    · rw [if_neg hm] at hok
      cases hok
  | @tick now s1 s2 ns1 hr hok ih =>
    have hnd := reachable_nodup hr
    obtain ⟨ns0, heq, _⟩ := alert_due_tasks_eq now hnd
    rw [heq] at hok
    injection hok with hok
    have h1 := congrArg Prod.fst hok
    simp only at h1
    intro p hp
    rw [← h1] at hp
    exact ih p ((List.filter_sublist s1).subset hp)

/-- Witness for C9: the invariant at the concrete reachable state produced
by one add on the empty store. -/
theorem reachable_deadline_ge_start_witness :
    DeadlineInv (TodoList.add "a" "cleanup" "2h30m" 50 []) :=
  reachable_deadline_ge_start
    (Reachable.add "a" "cleanup" "2h30m" 50 Reachable.init)

/-- C6: when a unit letter occurs several times among the matches, the
last occurrence determines that unit's amount (the kwargs dictionary entry
is overwritten), so "1h1h" parses to one hour, not two. -/
theorem parse_time_last_occurrence_wins :
    (∀ toks : List (Nat × Char),
        (buildKwargs toks).days = lastAmount 'd' toks
        ∧ (buildKwargs toks).hours = lastAmount 'h' toks
        ∧ (buildKwargs toks).minutes = lastAmount 'm' toks
        ∧ (buildKwargs toks).seconds = lastAmount 's' toks)
    ∧ parse_time "1h1h" = 3600
    ∧ parse_time "1h1h" ≠ 7200 := by
  refine ⟨fun toks => ⟨?_, ?_, ?_, ?_⟩, by decide, by decide⟩
  · exact foldl_applyToken_days toks {}
  · exact foldl_applyToken_hours toks {}
  · exact foldl_applyToken_minutes toks {}
  · exact foldl_applyToken_seconds toks {}

/-! ## Formatting negative durations (C10): no minus sign can appear -/

theorem digitChar_ne_minus (n : Nat) (h : n < 10) : Nat.digitChar n ≠ '-' := by
  interval_cases n <;> decide

theorem toDigitsCore_ne_minus :
    ∀ (fuel n : Nat) (ds : List Char), (∀ c ∈ ds, c ≠ '-') →
      ∀ c ∈ Nat.toDigitsCore 10 fuel n ds, c ≠ '-' := by
  intro fuel
  induction fuel with
  | zero =>
    intro n ds hds c hc
    exact hds c hc
  | succ f ih =>
    intro n ds hds c hc
    rw [Nat.toDigitsCore] at hc
    have hd : Nat.digitChar (n % 10) ≠ '-' :=
      digitChar_ne_minus _ (Nat.mod_lt n (by norm_num))
    have hds' : ∀ c ∈ Nat.digitChar (n % 10) :: ds, c ≠ '-' := by
      intro c hc
      rcases List.mem_cons.mp hc with rfl | hc'
      · exact hd
      · exact hds c hc'
    by_cases hz : n / 10 = 0
    · rw [if_pos hz] at hc
      exact hds' c hc
    · rw [if_neg hz] at hc
      exact ih _ _ hds' c hc

theorem nat_repr_ne_minus (n : Nat) : ∀ c ∈ (Nat.repr n).toList, c ≠ '-' := by
  intro c hc
  exact toDigitsCore_ne_minus (n + 1) n [] (by simp) c hc

theorem int_toString_nonneg (i : Int) (h : 0 ≤ i) :
    toString i = Nat.repr i.toNat := by
  cases i with
  | ofNat m => rfl
  | negSucc m => exact absurd h (Int.negSucc_lt_zero m).not_le

theorem string_toList_append (a b : String) :
    (a ++ b).toList = a.toList ++ b.toList :=
  String.data_append a b

theorem renderPart_ne_minus (n : Int) (unit : String) (hn : 0 < n)
    (hu : ∀ c ∈ unit.toList, c ≠ '-') :
    ∀ c ∈ (renderPart n unit).toList, c ≠ '-' := by
  intro c hc
  rw [renderPart, string_toList_append, string_toList_append,
    string_toList_append] at hc
  rcases List.mem_append.mp hc with hc1 | hc4
  · rcases List.mem_append.mp hc1 with hc2 | hc3
    · rcases List.mem_append.mp hc2 with hcn | hcsp
      · rw [int_toString_nonneg n (le_of_lt hn)] at hcn
        exact nat_repr_ne_minus n.toNat c hcn
      · exact (by decide : ∀ x ∈ (" ").toList, x ≠ '-') c hcsp
    · exact hu c hc3
  · by_cases h1 : n > 1
    · rw [if_pos h1] at hc4
      exact (by decide : ∀ x ∈ ("s").toList, x ≠ '-') c hc4
    · rw [if_neg h1] at hc4
      simp at hc4

theorem getLastD_mem_cons : ∀ (l : List String) (a d : String),
    (a :: l).getLastD d ∈ a :: l := by
  intro l
  induction l with
  | nil =>
    intro a d
    simp
  | cons b l ih =>
    intro a d
    rw [List.getLastD_cons]
    exact List.mem_cons_of_mem a (ih b a)

theorem joinComma_chars : ∀ (l : List String) (c : Char),
    c ∈ (joinComma l).toList → c = ',' ∨ c = ' ' ∨ ∃ p ∈ l, c ∈ p.toList := by
  intro l
  induction l with
  | nil =>
    intro c hc
    simp [joinComma] at hc
  | cons p rest ih =>
    intro c hc
    cases rest with
    | nil =>
      rw [joinComma] at hc
      exact Or.inr (Or.inr ⟨p, List.mem_cons_self _ _, hc⟩)
    | cons q rest' =>
      rw [joinComma, string_toList_append, string_toList_append] at hc
      rcases List.mem_append.mp hc with hc1 | hc2
      · rcases List.mem_append.mp hc1 with hcp | hcsep
        · exact Or.inr (Or.inr ⟨p, List.mem_cons_self _ _, hcp⟩)
        · rcases (by decide : ∀ x ∈ (", ").toList, x = ',' ∨ x = ' ') c hcsep with h | h
          · exact Or.inl h
          · exact Or.inr (Or.inl h)
      · rcases ih c hc2 with h | h | ⟨r, hr, hcr⟩
        · exact Or.inl h
        · exact Or.inr (Or.inl h)
        · exact Or.inr (Or.inr ⟨r, List.mem_cons_of_mem p hr, hcr⟩)

theorem combineParts_ne_minus (parts : List String)
    (hp : ∀ p ∈ parts, ∀ c ∈ p.toList, c ≠ '-') :
    ∀ c ∈ (combineParts parts).toList, c ≠ '-' := by
  intro c hc
  match parts with
  | [] =>
    rw [show combineParts [] = "0 seconds" from rfl] at hc
    exact (by decide : ∀ x ∈ ("0 seconds").toList, x ≠ '-') c hc
  | [p] =>
    rw [show combineParts [p] = p from rfl] at hc
    exact hp p (List.mem_cons_self _ _) c hc
  | p :: q :: rest =>
    have hlen : (p :: q :: rest).length > 1 := by
      simp
    rw [combineParts, if_pos hlen, string_toList_append,
      string_toList_append] at hc
    rcases List.mem_append.mp hc with hc1 | hc3
    · rcases List.mem_append.mp hc1 with hcj | hcsep
      · rcases joinComma_chars _ c hcj with rfl | rfl | ⟨r, hr, hcr⟩
        · decide
        · decide
        · exact hp r ((List.dropLast_sublist _).subset hr) c hcr
      · exact (by decide : ∀ x ∈ (", and ").toList, x ≠ '-') c hcsep
    · rw [show (p :: q :: rest).getLastD "" = (q :: rest).getLastD p from
        List.getLastD_cons _ _ _] at hc3
      exact hp ((q :: rest).getLastD p)
        (List.mem_cons_of_mem p (getLastD_mem_cons rest q p)) c hc3

theorem convert_timedelta_ne_minus (delta : Int) :
    ∀ c ∈ (convert_timedelta delta).toList, c ≠ '-' := by
  show ∀ c ∈ (combineParts _).toList, c ≠ '-'
  apply combineParts_ne_minus
  intro p hpmem
  rcases List.mem_append.mp hpmem with h1 | hsec
  · rcases List.mem_append.mp h1 with h2 | hmin
    · rcases List.mem_append.mp h2 with hday | hhour
      · by_cases hg : delta.ediv 86400 > 0
        · rw [if_pos hg] at hday
          rcases List.mem_singleton.mp hday with rfl
          exact renderPart_ne_minus _ _ hg (by decide)
        · rw [if_neg hg] at hday
          simp at hday
      · by_cases hg : (delta.emod 86400).ediv 3600 > 0
        · rw [if_pos hg] at hhour
          rcases List.mem_singleton.mp hhour with rfl
          exact renderPart_ne_minus _ _ hg (by decide)
        · rw [if_neg hg] at hhour
          simp at hhour
    · by_cases hg : ((delta.emod 86400).emod 3600).ediv 60 > 0
      · rw [if_pos hg] at hmin
        rcases List.mem_singleton.mp hmin with rfl
        exact renderPart_ne_minus _ _ hg (by decide)
      · rw [if_neg hg] at hmin
        simp at hmin
  · by_cases hg : ((delta.emod 86400).emod 3600).emod 60 > 0
    · rw [if_pos hg] at hsec
      rcases List.mem_singleton.mp hsec with rfl
      exact renderPart_ne_minus _ _ hg (by decide)
    · rw [if_neg hg] at hsec
      simp at hsec

/-- C10: convert_timedelta never renders a minus sign: the floor-division
day quotient of a negative duration is negative and so dropped, and the
remaining components come from non-negative remainders.  Concretely,
-30 seconds formats as "23 hours, 59 minutes, and 30 seconds" and exactly
-1 day formats as "0 seconds". -/
theorem format_negative_wraps_without_minus :
    convert_timedelta (-30) = "23 hours, 59 minutes, and 30 seconds"
    ∧ convert_timedelta (-86400) = "0 seconds"
    ∧ ∀ delta : Int,
        (convert_timedelta delta).toList.all (fun c => c ≠ '-') = true := by
  refine ⟨by decide, by decide, ?_⟩
  intro delta
  rw [List.all_eq_true]
  intro c hc
  simpa using convert_timedelta_ne_minus delta c hc

end PyList
